import Mathlib

/-!
Shallow embedding of `go-immutable-bitset` (package `bitset`, file `bitset.go`).

Go machine types are modelled as `Nat`:
* `uint64` words are `Nat`s; every word manipulated by the library stays
  below `2 ^ 64` (captured by the `wfWords` / `Inv` predicates where a
  theorem needs it).  All shift amounts that the Go code executes are
  dynamically `< 64`, so plain `Nat` shifts agree with `uint64` shifts.
* `uint32` bit indices are `Nat`s.
* the Go slice `[]uint64` is a `List Nat`; Go's `b[i]` reads are `List.getD`
  (every read in the source is dynamically in range), slice writes are
  `List.set`.

`x &^ y` (Go AND NOT on `uint64`) is `andNot` below.
-/

namespace Bitset

/-- The all-ones 64-bit word, used to model Go's 64-bit complement. -/
def mask64 : Nat := 2 ^ 64 - 1

/-- Go's `x &^ y` on `uint64` (bit clear): `x AND (NOT y)` within 64 bits. -/
def andNot (x y : Nat) : Nat := x &&& (mask64 ^^^ y)

/-- The `bitset.Set` interface: a tagged union of the two concrete
representations, `bitSet64` (inline `uint64`) and `largeBitSet` (`[]uint64`). -/
inductive Set where
  | small (b : Nat)
  | large (bits : List Nat)
deriving DecidableEq, Repr

/-- `func New() Set { return bitSet64(0) }` -/
def New : Set := .small 0

/-- `func (b bitSet64) Has(bitIndex uint32) bool` -/
def bitSet64.Has (b : Nat) (bitIndex : Nat) : Bool :=
  if 64 ≤ bitIndex then false
  else b &&& (1 <<< bitIndex) != 0

/-- `func (b bitSet64) Add(bitIndex uint32) Set` -/
def bitSet64.Add (b : Nat) (bitIndex : Nat) : Set :=
  if bitIndex < 64 then .small (b ||| (1 <<< bitIndex))
  else
    -- upgrade to largeBitSet:
    -- newBits := make([]uint64, idx+1); newBits[0] = uint64(b);
    -- newBits[idx] |= 1 << (bitIndex % 64)
    let idx := bitIndex / 64
    let newBits := (List.replicate (idx + 1) 0).set 0 b
    let newBits := newBits.set idx ((newBits.getD idx 0) ||| (1 <<< (bitIndex % 64)))
    .large newBits

/-- `func (b bitSet64) Remove(bitIndex uint32) Set` -/
def bitSet64.Remove (b : Nat) (bitIndex : Nat) : Set :=
  if 64 ≤ bitIndex then .small b
  else .small (andNot b (1 <<< bitIndex))

/-- `func (b largeBitSet) Has(bitIndex uint32) bool` -/
def largeBitSet.Has (b : List Nat) (bitIndex : Nat) : Bool :=
  let idx := bitIndex / 64
  if b.length ≤ idx then false
  else (b.getD idx 0) &&& (1 <<< (bitIndex % 64)) != 0

/-- `func (b largeBitSet) Add(bitIndex uint32) Set` — always returns a
`largeBitSet`, so the payload list is returned here and wrapped in
`Set.large` at the dispatch level.  `make` + `copy` of `b` into a slice of
length `max(len(b), idx+1)` is `b` padded with zeros. -/
def largeBitSet.Add (b : List Nat) (bitIndex : Nat) : List Nat :=
  let idx := bitIndex / 64
  let newBits := b ++ List.replicate (max b.length (idx + 1) - b.length) 0
  newBits.set idx ((newBits.getD idx 0) ||| (1 <<< (bitIndex % 64)))

/-- The loop guard of the backward scan in `largeBitSet.Remove`:
`b[lastIdx] == 0 || (lastIdx == idx && b[lastIdx] == 1<<(bitIndex%64))`. -/
def skippable (b : List Nat) (idx mask k : Nat) : Bool :=
  b.getD k 0 == 0 || (k == idx && b.getD k 0 == mask)

/-- The backward scan loop of `largeBitSet.Remove`:
`findLastIdx b idx mask n` is the value of `lastIdx` after running the loop
starting at `lastIdx = n - 1` (so the source calls it with `n = len(b)`). -/
def findLastIdx (b : List Nat) (idx mask : Nat) : Nat → Int
  | 0 => -1
  | k + 1 => if skippable b idx mask k then findLastIdx b idx mask k else (k : Int)

/-- `func (b largeBitSet) Remove(bitIndex uint32) Set` -/
def largeBitSet.Remove (b : List Nat) (bitIndex : Nat) : Set :=
  let idx := bitIndex / 64
  if b.length ≤ idx then .large b
  else
    let lastIdx : Int := findLastIdx b idx (1 <<< (bitIndex % 64)) b.length
    if lastIdx ≤ 0 then
      -- b := b[0]; if b != 0 && idx == 0 { b &^= (1 << bitIndex) }
      let b0 := b.getD 0 0
      let b0 := if b0 ≠ 0 ∧ idx = 0 then andNot b0 (1 <<< bitIndex) else b0
      .small b0
    else
      -- bits := b[:lastIdx+1]; newBits := copy of bits;
      -- if idx < len(newBits) { newBits[idx] &^= 1 << (bitIndex % 64) }
      let bits := b.take (lastIdx.toNat + 1)
      let newBits :=
        if bitIndex / 64 < bits.length then
          bits.set idx (andNot (bits.getD idx 0) (1 <<< (bitIndex % 64)))
        else bits
      .large newBits

/-- Dynamic dispatch of `Set.Has` over the two representations. -/
def Set.Has : Set → Nat → Bool
  | .small b, i => bitSet64.Has b i
  | .large b, i => largeBitSet.Has b i

/-- Dynamic dispatch of `Set.Add` over the two representations. -/
def Set.Add : Set → Nat → Set
  | .small b, i => bitSet64.Add b i
  | .large b, i => .large (largeBitSet.Add b i)

/-- Dynamic dispatch of `Set.Remove` over the two representations. -/
def Set.Remove : Set → Nat → Set
  | .small b, i => bitSet64.Remove b i
  | .large b, i => largeBitSet.Remove b i

/-- The `bitset.Builder` interface: tagged union of the two concrete builders,
`bitSet64` (a builder over the inline word) and `bitSetBuilder` (`[]uint64`). -/
inductive Builder where
  | small (b : Nat)
  | large (bits : List Nat)
deriving DecidableEq, Repr

/-- `func (b bitSet64) With(bitIndex uint32) Builder`.
The source computes `s := b.Add(bitIndex)` and returns `s.(bitSet64)` when
`bitIndex < 64`, else `bitSetBuilder(s.(largeBitSet))`; since `bitSet64.Add`
returns the inline form exactly when `bitIndex < 64`, both type assertions
always succeed and the function just re-tags the result of `Add`. -/
def bitSet64.With (b : Nat) (bitIndex : Nat) : Builder :=
  match bitSet64.Add b bitIndex with
  | .small s => .small s
  | .large s => .large s

/-- `func (b bitSetBuilder) With(bitIndex uint32) Builder` — sets the bit in
place when the slot is in range, otherwise grows via `largeBitSet.Add`. -/
def bitSetBuilder.With (b : List Nat) (bitIndex : Nat) : List Nat :=
  let idx := bitIndex / 64
  if idx < b.length then b.set idx ((b.getD idx 0) ||| (1 <<< (bitIndex % 64)))
  else largeBitSet.Add b bitIndex

/-- Dispatch of `Builder.With` over the two builder representations. -/
def Builder.With : Builder → Nat → Builder
  | .small b, i => bitSet64.With b i
  | .large b, i => .large (bitSetBuilder.With b i)

/-- `WithMany` on either builder: the identical loop
`for _, i := range bitIndices { bld = bld.With(i) }`. -/
def Builder.WithMany (b : Builder) (bitIndices : List Nat) : Builder :=
  bitIndices.foldl Builder.With b

/-- `Build`: `bitSet64.Build` returns the word itself, `bitSetBuilder.Build`
returns `largeBitSet(b)`. -/
def Builder.Build : Builder → Set
  | .small b => .small b
  | .large b => .large b

/-- `func NewBuilder(minCapacity int) Builder` -/
def NewBuilder (minCapacity : Nat) : Builder :=
  if minCapacity ≤ 64 then .small 0
  else .large (List.replicate ((minCapacity + 63) / 64) 0)

/-- Representation tag of a `Set` value. -/
def Set.isLarge : Set → Bool
  | .small _ => false
  | .large _ => true

/-! ### Well-formedness and the heap-form invariant -/

/-- Every word of the slice fits in a `uint64` (automatic in Go). -/
def wfWords (b : List Nat) : Prop := ∀ k, k < b.length → b.getD k 0 < 2 ^ 64

/-- The spec's heap-form invariant: at least two words, non-zero last word,
well-formed words. -/
def heapInv (b : List Nat) : Prop :=
  2 ≤ b.length ∧ b.getD (b.length - 1) 0 ≠ 0 ∧ wfWords b

/-- Invariant of a `Set` value: inline words fit in `uint64`; heap forms
satisfy `heapInv`. -/
def Inv : Set → Prop
  | .small b => b < 2 ^ 64
  | .large bs => heapInv bs

instance (b : List Nat) : Decidable (wfWords b) := by unfold wfWords; infer_instance

instance (b : List Nat) : Decidable (heapInv b) := by unfold heapInv; infer_instance

instance (s : Set) : Decidable (Inv s) := by cases s <;> simp only [Inv] <;> infer_instance

/-- The `Set` values reachable from `New()` using only `Add` and `Remove`
(no `Builder`). -/
inductive Reachable : Set → Prop where
  | new : Reachable New
  | add (s : Set) (i : Nat) : Reachable s → Reachable (Set.Add s i)
  | rem (s : Set) (i : Nat) : Reachable s → Reachable (Set.Remove s i)

/-- The word sequence of a heap-form value (`[]` for inline values). -/
def Set.heapList : Set → List Nat
  | .small _ => []
  | .large l => l

/-! ### Store model of Go slices (for the immutability claim)

A `largeBitSet` value in Go is a reference to a backing array.  `Store` is the
heap of allocated slices; `Add`/`Remove` are re-expressed with every slice
read and write explicit, following the source statement by statement:
allocations (`make`) append a fresh zeroed slice, `copy` and element
assignment write only to the slice they target. -/

abbrev Store := List (List Nat)

/-- Dereference a slice. -/
def Store.read (h : Store) (r : Nat) : List Nat := h.getD r []

/-- Go's `copy(dst, src)`: overwrite the prefix of `dst` with up to
`len(dst)` elements of `src`. -/
def goCopy (dst src : List Nat) : List Nat :=
  src.take dst.length ++ dst.drop src.length

/-- `largeBitSet.Add`, store-level: `b := h[r]`; `newBits := make(...)`;
`copy(newBits, b)`; `newBits[idx] |= 1 << (bitIndex % 64)`.  Every write
targets the freshly allocated slice `nr`. -/
def largeBitSet.AddS (h : Store) (r : Nat) (bitIndex : Nat) : Store × Nat :=
  let b := Store.read h r
  let idx := bitIndex / 64
  let nr := h.length
  let h1 := h ++ [List.replicate (max b.length (idx + 1)) 0]
  let h2 := h1.set nr (goCopy (Store.read h1 nr) b)
  let nb := Store.read h2 nr
  let h3 := h2.set nr (nb.set idx ((nb.getD idx 0) ||| (1 <<< (bitIndex % 64))))
  (h3, nr)

/-- Store-level result of `Remove`: an inline word or a slice reference. -/
inductive SetRef where
  | small (b : Nat)
  | ref (r : Nat)
deriving DecidableEq, Repr

/-- `largeBitSet.Remove`, store-level.  The no-op branch returns the original
reference; the demotion branch returns an inline word; the shrink branch
allocates `newBits`, copies the prefix view `b[:lastIdx+1]` into it (a read
of `b`), and clears the target bit in the fresh slice only. -/
def largeBitSet.RemoveS (h : Store) (r : Nat) (bitIndex : Nat) : Store × SetRef :=
  let b := Store.read h r
  let idx := bitIndex / 64
  if b.length ≤ idx then (h, .ref r)
  else
    let lastIdx : Int := findLastIdx b idx (1 <<< (bitIndex % 64)) b.length
    if lastIdx ≤ 0 then
      let b0 := b.getD 0 0
      let b0 := if b0 ≠ 0 ∧ idx = 0 then andNot b0 (1 <<< bitIndex) else b0
      (h, .small b0)
    else
      let bits := b.take (lastIdx.toNat + 1)
      let nr := h.length
      let h1 := h ++ [List.replicate bits.length 0]
      let h2 := h1.set nr (goCopy (Store.read h1 nr) bits)
      let nb := Store.read h2 nr
      let h3 :=
        if idx < nb.length then
          h2.set nr (nb.set idx (andNot (nb.getD idx 0) (1 <<< (bitIndex % 64))))
        else h2
      (h3, .ref nr)

/-! ### The claim-side description of `largeBitSet.Remove`

For the refinement claim about `Remove`, the following definitions follow the
claim text rather than the code: the scan skips all-zero words and — for the
target slot only — a word whose *sole set bit* is the one being removed; the
demote branch clears the target bit exactly when the target slot is 0; the
heap branch clears the target bit in the copied words (with no explicit
range guard: an out-of-range `List.set` is the identity). -/

/-- Claim phrasing: the sole set bit of the 64-bit word `w` is bit `j`. -/
def soleBit (w j : Nat) : Bool :=
  decide (w ≠ 0) &&
    @decide (∀ m, m < 64 → (w.testBit m ↔ m = j)) (Nat.decidableBallLT 64 _)

/-- Claim phrasing of the scan's skip condition. -/
def skippableDescribed (b : List Nat) (idx j k : Nat) : Bool :=
  b.getD k 0 == 0 || (k == idx && soleBit (b.getD k 0) j)

/-- Claim phrasing of the backward scan. -/
def findLastIdxDescribed (b : List Nat) (idx j : Nat) : Nat → Int
  | 0 => -1
  | k + 1 =>
      if skippableDescribed b idx j k then findLastIdxDescribed b idx j k else (k : Int)

/-- `Remove` as described by the claim (see the section header). -/
def RemoveDescribed (b : List Nat) (bitIndex : Nat) : Set :=
  let idx := bitIndex / 64
  let lastIdx : Int := findLastIdxDescribed b idx (bitIndex % 64) b.length
  if lastIdx ≤ 0 then
    .small (if idx = 0 then andNot (b.getD 0 0) (1 <<< (bitIndex % 64)) else b.getD 0 0)
  else
    .large ((b.take (lastIdx.toNat + 1)).set idx
      (andNot ((b.take (lastIdx.toNat + 1)).getD idx 0) (1 <<< (bitIndex % 64))))

/-! ### List access helpers -/

theorem getD_oob {l : List Nat} {k : Nat} (h : l.length ≤ k) : l.getD k 0 = 0 := by
  simp [List.getD_eq_getElem?_getD, List.getElem?_eq_none, h]

theorem wfWords_getD {b : List Nat} (h : wfWords b) (k : Nat) : b.getD k 0 < 2 ^ 64 := by
  rcases Nat.lt_or_ge k b.length with hk | hk
  · exact h k hk
  · rw [getD_oob hk]; exact Nat.pos_pow_of_pos 64 (by norm_num)

theorem getD_set_self {l : List Nat} {k : Nat} (v : Nat) (h : k < l.length) :
    (l.set k v).getD k 0 = v := by
  simp [List.getD_eq_getElem?_getD, List.getElem?_set_self, h]

theorem getD_set_ne {l : List Nat} {k m : Nat} (v : Nat) (h : m ≠ k) :
    (l.set k v).getD m 0 = l.getD m 0 := by
  simp [List.getD_eq_getElem?_getD, List.getElem?_set_ne (Ne.symm h)]

theorem getD_append_left {l r : List Nat} {n : Nat} (h : n < l.length) :
    (l ++ r).getD n 0 = l.getD n 0 := by
  simp [List.getD_eq_getElem?_getD, List.getElem?_append_left h]

theorem getD_append_right {l r : List Nat} {n : Nat} (h : l.length ≤ n) :
    (l ++ r).getD n 0 = r.getD (n - l.length) 0 := by
  simp [List.getD_eq_getElem?_getD, List.getElem?_append_right h]

theorem getD_replicate (n k : Nat) : (List.replicate n (0 : Nat)).getD k 0 = 0 := by
  rcases Nat.lt_or_ge k n with hk | hk
  · simp [List.getD_eq_getElem?_getD, List.getElem?_replicate, hk]
  · exact getD_oob (by simpa using hk)

theorem getD_take {l : List Nat} {n k : Nat} (h : k < n) :
    (l.take n).getD k 0 = l.getD k 0 := by
  rcases Nat.lt_or_ge k l.length with hk | hk
  · simp [List.getD_eq_getElem?_getD, List.getElem?_take, h]
  · rw [getD_oob hk, getD_oob (by simp; omega)]

theorem getD_pad (b : List Nat) (pad k : Nat) :
    (b ++ List.replicate pad 0).getD k 0 = b.getD k 0 := by
  rcases Nat.lt_or_ge k b.length with hk | hk
  · exact getD_append_left hk
  · rw [getD_append_right hk, getD_replicate, getD_oob hk]

theorem getD_ext {l l' : List Nat} (h : l.length = l'.length)
    (hp : ∀ k, l.getD k 0 = l'.getD k 0) : l = l' := by
  apply List.ext_getElem h
  intro i h1 h2
  have := hp i
  rwa [List.getD_eq_getElem _ _ h1, List.getD_eq_getElem _ _ h2] at this

/-! ### Bit-level helpers -/

theorem testBit_mask64 (j : Nat) : mask64.testBit j = decide (j < 64) := by
  unfold mask64; exact Nat.testBit_two_pow_sub_one 64 j

theorem testBit_shl_one (j k : Nat) : ((1 : Nat) <<< j).testBit k = decide (j = k) := by
  rw [Nat.one_shiftLeft]; exact Nat.testBit_two_pow

theorem testBit_ge_64 {w k : Nat} (hw : w < 2 ^ 64) (hk : 64 ≤ k) : w.testBit k = false :=
  Nat.testBit_lt_two_pow (lt_of_lt_of_le hw (Nat.pow_le_pow_right (by norm_num) hk))

theorem and_shl_one_ne (w j : Nat) : (w &&& (1 <<< j) != 0) = w.testBit j := by
  rw [Nat.one_shiftLeft, Nat.and_two_pow]
  cases h : w.testBit j <;> simp [h, (Nat.two_pow_pos j).ne.symm]

theorem andNot_testBit (x y k : Nat) :
    (andNot x y).testBit k = (x.testBit k && (decide (k < 64) ^^ y.testBit k)) := by
  simp [andNot, Nat.testBit_and, Nat.testBit_xor, testBit_mask64]

theorem andNot_le (x y : Nat) : andNot x y ≤ x := Nat.and_le_left

theorem andNot_zero (y : Nat) : andNot 0 y = 0 := by simp [andNot]

theorem or_shl_one_ne_zero (w j : Nat) : w ||| (1 <<< j) ≠ 0 := by
  intro h
  have := congrArg (Nat.testBit · j) h
  simp [Nat.testBit_or, testBit_shl_one] at this

theorem clear_set_bit {w j : Nat} (hw : w < 2 ^ 64) (hj : j < 64)
    (h : w.testBit j = false) : andNot (w ||| (1 <<< j)) (1 <<< j) = w := by
  apply Nat.eq_of_testBit_eq
  intro k
  rw [andNot_testBit, Nat.testBit_or, testBit_shl_one]
  by_cases hk : j = k
  · subst hk; simp [h, hj]
  · rcases Nat.lt_or_ge k 64 with hk64 | hk64
    · simp [hk, hk64]
    · simp [hk, Nat.not_lt.mpr hk64, testBit_ge_64 hw hk64]

theorem andNot_ne_zero {w j : Nat} (hw : w < 2 ^ 64) (hj : j < 64)
    (h0 : w ≠ 0) (hne : w ≠ 1 <<< j) : andNot w (1 <<< j) ≠ 0 := by
  intro hz
  have hp : ∀ k, (andNot w (1 <<< j)).testBit k = false := by
    intro k; rw [hz]; exact Nat.zero_testBit k
  have hsub : ∀ k, k ≠ j → w.testBit k = false := by
    intro k hk
    rcases Nat.lt_or_ge k 64 with hk64 | hk64
    · have := hp k
      rw [andNot_testBit, testBit_shl_one] at this
      simpa [hk64, Ne.symm hk] using this
    · exact testBit_ge_64 hw hk64
  cases hb : w.testBit j with
  | false =>
      exact h0 (Nat.eq_of_testBit_eq fun k => by
        rcases eq_or_ne k j with rfl | hk
        · simpa using hb
        · simpa using hsub k hk)
  | true =>
      exact hne (Nat.eq_of_testBit_eq fun k => by
        rw [testBit_shl_one]
        rcases eq_or_ne k j with rfl | hk
        · simpa using hb
        · simp [hsub k hk, Ne.symm hk])

theorem or_single_ne_single {w j : Nat} (h0 : w ≠ 0) (h : w.testBit j = false) :
    w ||| (1 <<< j) ≠ 1 <<< j := by
  intro he
  apply h0
  apply Nat.eq_of_testBit_eq
  intro k
  have := congrArg (Nat.testBit · k) he
  simp only [Nat.testBit_or, testBit_shl_one] at this
  rcases eq_or_ne j k with rfl | hk
  · simp [h]
  · simpa [hk] using this

theorem shl_one_lt (j : Nat) (hj : j < 64) : (1 : Nat) <<< j < 2 ^ 64 := by
  rw [Nat.one_shiftLeft]
  exact Nat.pow_lt_pow_right (by norm_num) hj

/-! ### Normal forms for `Has` -/

theorem bitSet64_Has_eq (b i : Nat) :
    bitSet64.Has b i = (decide (i < 64) && b.testBit i) := by
  unfold bitSet64.Has
  rcases Nat.lt_or_ge i 64 with h | h
  · simp [Nat.not_le.mpr h, h, and_shl_one_ne]
  · simp [h, Nat.not_lt.mpr h]

theorem bitSet64_Has_eq_wf {b : Nat} (hb : b < 2 ^ 64) (i : Nat) :
    bitSet64.Has b i = b.testBit i := by
  rw [bitSet64_Has_eq]
  rcases Nat.lt_or_ge i 64 with h | h
  · simp [h]
  · simp [Nat.not_lt.mpr h, testBit_ge_64 hb h]

theorem largeBitSet_Has_eq (b : List Nat) (i : Nat) :
    largeBitSet.Has b i = (b.getD (i / 64) 0).testBit (i % 64) := by
  unfold largeBitSet.Has
  rcases Nat.lt_or_ge (i / 64) b.length with h | h
  · simp [Nat.not_le.mpr h, and_shl_one_ne]
  · simp [h, List.getElem?_eq_none h, Nat.zero_testBit]

/-! ### The backward scan of `largeBitSet.Remove` -/

theorem skippable_true_iff {b : List Nat} {idx mask k : Nat} :
    skippable b idx mask k = true ↔
      (b.getD k 0 = 0 ∨ (k = idx ∧ b.getD k 0 = mask)) := by
  simp [skippable]

theorem skippable_false_iff {b : List Nat} {idx mask k : Nat} :
    skippable b idx mask k = false ↔
      (b.getD k 0 ≠ 0 ∧ ¬(k = idx ∧ b.getD k 0 = mask)) := by
  rw [← Bool.not_eq_true, skippable_true_iff]
  tauto

theorem findLastIdx_eq_of (b : List Nat) (idx mask k : Nat) :
    ∀ n, k < n → skippable b idx mask k = false →
      (∀ m, k < m → m < n → skippable b idx mask m = true) →
      findLastIdx b idx mask n = (k : Int) := by
  intro n
  induction n with
  | zero => omega
  | succ n ih =>
      intro hk hs hm
      rcases Nat.lt_or_ge k n with hlt | hge
      · have hn : skippable b idx mask n = true := hm n hlt (Nat.lt_succ_self n)
        simp only [findLastIdx, hn, if_true]
        exact ih hlt hs fun m h1 h2 => hm m h1 (Nat.lt_succ_of_lt h2)
      · have : k = n := by omega
        subst this
        simp [findLastIdx, hs]

theorem findLastIdx_neg (b : List Nat) (idx mask : Nat) :
    ∀ n, (∀ m, m < n → skippable b idx mask m = true) →
      findLastIdx b idx mask n = -1 := by
  intro n
  induction n with
  | zero => intro _; rfl
  | succ n ih =>
      intro hm
      simp only [findLastIdx, hm n (Nat.lt_succ_self n), if_true]
      exact ih fun m h => hm m (Nat.lt_succ_of_lt h)

theorem findLastIdx_cases (b : List Nat) (idx mask : Nat) :
    ∀ n, findLastIdx b idx mask n = -1 ∨
      ∃ k, k < n ∧ findLastIdx b idx mask n = (k : Int) ∧
        skippable b idx mask k = false := by
  intro n
  induction n with
  | zero => exact Or.inl rfl
  | succ n ih =>
      cases hs : skippable b idx mask n with
      | true =>
          rcases ih with h | ⟨k, hk, he, hf⟩
          · exact Or.inl (by simp [findLastIdx, hs, h])
          · exact Or.inr ⟨k, Nat.lt_succ_of_lt hk, by simp [findLastIdx, hs, he], hf⟩
      | false =>
          exact Or.inr ⟨n, Nat.lt_succ_self n, by simp [findLastIdx, hs], hs⟩

/-! ### Shape of `Add` results -/

theorem largeAdd_length (b : List Nat) (i : Nat) :
    (largeBitSet.Add b i).length = max b.length (i / 64 + 1) := by
  simp only [largeBitSet.Add, List.length_set, List.length_append, List.length_replicate]
  omega

theorem largeAdd_getD (b : List Nat) (i k : Nat) :
    (largeBitSet.Add b i).getD k 0 =
      if k = i / 64 then b.getD k 0 ||| (1 <<< (i % 64)) else b.getD k 0 := by
  unfold largeBitSet.Add
  have hlen : (b ++ List.replicate (max b.length (i / 64 + 1) - b.length) 0).length
      = max b.length (i / 64 + 1) := by
    simp only [List.length_append, List.length_replicate]; omega
  rcases eq_or_ne k (i / 64) with rfl | hk
  · rw [if_pos rfl, getD_set_self _ (by rw [hlen]; omega), getD_pad]
  · rw [if_neg hk, getD_set_ne _ hk, getD_pad]

theorem div64_ge_one {i : Nat} (h : 64 ≤ i) : 1 ≤ i / 64 :=
  (Nat.one_le_div_iff (by norm_num)).mpr h

/-- Explicit form of the inline→heap promotion in `bitSet64.Add`. -/
theorem add_promote (b : Nat) {i : Nat} (h : 64 ≤ i) :
    bitSet64.Add b i =
      .large (((List.replicate (i / 64 + 1) 0).set 0 b).set (i / 64) (1 <<< (i % 64))) := by
  have hidx : 1 ≤ i / 64 := div64_ge_one h
  unfold bitSet64.Add
  rw [if_neg (by omega)]
  simp only [Set.large.injEq]
  congr 1
  rw [getD_set_ne b (by omega), getD_replicate, Nat.zero_or]

theorem promote_getD (b : Nat) {i : Nat} (h : 64 ≤ i) (k : Nat) :
    (((List.replicate (i / 64 + 1) 0).set 0 b).set (i / 64) (1 <<< (i % 64))).getD k 0 =
      if k = 0 then b else if k = i / 64 then 1 <<< (i % 64) else 0 := by
  have hidx : 1 ≤ i / 64 := div64_ge_one h
  have hlen : (((List.replicate (i / 64 + 1) 0).set 0 b).set (i / 64)
      (1 <<< (i % 64))).length = i / 64 + 1 := by simp
  rcases eq_or_ne k 0 with rfl | hk0
  · rw [if_pos rfl, getD_set_ne _ (by omega),
      getD_set_self _ (by simp only [List.length_replicate]; omega)]
  · rcases eq_or_ne k (i / 64) with rfl | hki
    · rw [if_neg hk0, if_pos rfl,
        getD_set_self _ (by simp only [List.length_set, List.length_replicate]; omega)]
    · rw [if_neg hk0, if_neg hki, getD_set_ne _ hki, getD_set_ne _ hk0, getD_replicate]


/-! ### Membership after `Add`; invariant preservation -/

theorem Has_New (k : Nat) : New.Has k = false := by
  simp [New, Set.Has, bitSet64_Has_eq, Nat.zero_testBit]

theorem Has_Add (S : Set) (i k : Nat) :
    (S.Add i).Has k = (decide (k = i) || S.Has k) := by
  cases S with
  | small b =>
      rcases Nat.lt_or_ge i 64 with hi | hi
      · show (bitSet64.Add b i).Has k = _
        rw [bitSet64.Add, if_pos hi]
        show bitSet64.Has (b ||| (1 <<< i)) k = _
        simp only [Set.Has]
        rw [bitSet64_Has_eq, bitSet64_Has_eq]
        simp only [Nat.testBit_or, testBit_shl_one]
        rcases Nat.lt_or_ge k 64 with hk | hk
        · rcases eq_or_ne k i with rfl | hne
          · simp [hk]
          · simp [hne, Ne.symm hne]
        · simp [Nat.not_lt.mpr hk, show k ≠ i by omega]
      · show (bitSet64.Add b i).Has k = _
        rw [add_promote b hi]
        show largeBitSet.Has _ k = _
        simp only [Set.Has]
        rw [largeBitSet_Has_eq, promote_getD b hi, bitSet64_Has_eq]
        rcases Nat.lt_or_ge k 64 with hk | hk
        · rw [if_pos (by omega)]
          simp [Nat.mod_eq_of_lt hk, hk, show k ≠ i by omega]
        · rw [if_neg (by omega)]
          simp only [decide_eq_false (Nat.not_lt.mpr hk), Bool.false_and, Bool.or_false]
          rcases eq_or_ne (k / 64) (i / 64) with he | hne
          · rw [if_pos he, testBit_shl_one]
            have hiff : (i % 64 = k % 64) ↔ (k = i) := by omega
            simp [hiff]
          · rw [if_neg hne]
            simp [Nat.zero_testBit, show k ≠ i by omega]
  | large bs =>
      show (Set.large (largeBitSet.Add bs i)).Has k = _
      simp only [Set.Has]
      rw [largeBitSet_Has_eq, largeBitSet_Has_eq, largeAdd_getD]
      rcases eq_or_ne (k / 64) (i / 64) with he | hne
      · rw [if_pos he]
        simp only [Nat.testBit_or, testBit_shl_one]
        have hiff : (i % 64 = k % 64) ↔ (k = i) := by omega
        simp [hiff, Bool.or_comm]
      · rw [if_neg hne]
        simp [show k ≠ i by omega]

theorem Inv_Add {S : Set} (h : Inv S) (i : Nat) : Inv (S.Add i) := by
  cases S with
  | small b =>
      rcases Nat.lt_or_ge i 64 with hi | hi
      · show Inv (bitSet64.Add b i)
        rw [bitSet64.Add, if_pos hi]
        exact Nat.or_lt_two_pow h (shl_one_lt i hi)
      · show Inv (bitSet64.Add b i)
        rw [add_promote b hi]
        have hidx : 1 ≤ i / 64 := div64_ge_one hi
        refine ⟨by simp; omega, ?_, ?_⟩
        · have hlen : (((List.replicate (i / 64 + 1) 0).set 0 b).set (i / 64)
              (1 <<< (i % 64))).length = i / 64 + 1 := by simp
          rw [hlen]
          simp only [Nat.add_sub_cancel]
          rw [promote_getD b hi, if_neg (by omega), if_pos rfl]
          rw [Nat.one_shiftLeft]
          exact (Nat.two_pow_pos (i % 64)).ne.symm
        · intro k hk
          rw [promote_getD b hi k]
          split
          · exact h
          · split
            · exact shl_one_lt _ (Nat.mod_lt i (by norm_num))
            · exact Nat.two_pow_pos 64
  | large bs =>
      obtain ⟨hl, hlast, hwf⟩ := h
      refine ⟨?_, ?_, ?_⟩
      · rw [largeAdd_length]; omega
      · rw [largeAdd_length, largeAdd_getD]
        rcases Nat.lt_or_ge (i / 64 + 1) bs.length with hc | hc
        · rw [show max bs.length (i / 64 + 1) = bs.length by omega,
            if_neg (by omega)]
          exact hlast
        · rcases Nat.lt_or_ge (i / 64) (bs.length - 1) with hc2 | hc2
          · omega
          · rcases Nat.eq_or_lt_of_le hc2 with he | hlt
            · rw [show max bs.length (i / 64 + 1) - 1 = i / 64 by omega, if_pos rfl]
              exact or_shl_one_ne_zero _ _
            · rw [show max bs.length (i / 64 + 1) - 1 = i / 64 by omega, if_pos rfl]
              exact or_shl_one_ne_zero _ _
      · intro k hk
        rw [largeAdd_getD]
        split
        · exact Nat.or_lt_two_pow (wfWords_getD hwf k) (shl_one_lt _ (Nat.mod_lt i (by norm_num)))
        · exact wfWords_getD hwf k

theorem wfWords_take {bs : List Nat} (hwf : wfWords bs) (n : Nat) :
    wfWords (bs.take n) := by
  intro k hk
  rw [List.length_take] at hk
  rw [getD_take (by omega)]
  exact wfWords_getD hwf k

/-! ### Evaluation and result shape of `largeBitSet.Remove` -/

theorem remove_eval (bs : List Nat) (i : Nat) (hidx : i / 64 < bs.length) :
    largeBitSet.Remove bs i =
      if findLastIdx bs (i / 64) (1 <<< (i % 64)) bs.length ≤ 0 then
        .small (if bs.getD 0 0 ≠ 0 ∧ i / 64 = 0
          then andNot (bs.getD 0 0) (1 <<< i) else bs.getD 0 0)
      else
        .large (if i / 64 <
            (bs.take ((findLastIdx bs (i / 64) (1 <<< (i % 64)) bs.length).toNat + 1)).length
          then (bs.take ((findLastIdx bs (i / 64) (1 <<< (i % 64)) bs.length).toNat + 1)).set
            (i / 64) (andNot ((bs.take ((findLastIdx bs (i / 64)
              (1 <<< (i % 64)) bs.length).toNat + 1)).getD (i / 64) 0) (1 <<< (i % 64)))
          else bs.take ((findLastIdx bs (i / 64) (1 <<< (i % 64)) bs.length).toNat + 1)) := by
  unfold largeBitSet.Remove
  rw [if_neg (Nat.not_le.mpr hidx)]

theorem remove_result {bs : List Nat} {i : Nat} (hwf : wfWords bs)
    (hidx : i / 64 < bs.length) :
    (∃ b0, largeBitSet.Remove bs i = .small b0 ∧ b0 < 2 ^ 64) ∨
    (∃ l, largeBitSet.Remove bs i = .large l ∧ 2 ≤ l.length ∧
      l.getD (l.length - 1) 0 ≠ 0 ∧ wfWords l) := by
  rw [remove_eval bs i hidx]
  rcases findLastIdx_cases bs (i / 64) (1 <<< (i % 64)) bs.length with hneg | ⟨k, hk, he, hs⟩
  · rw [hneg, if_pos (by norm_num)]
    refine Or.inl ⟨_, rfl, ?_⟩
    split
    · exact lt_of_le_of_lt (andNot_le _ _) (wfWords_getD hwf 0)
    · exact wfWords_getD hwf 0
  · rw [he]
    by_cases hk0 : k = 0
    · subst hk0
      rw [if_pos (by norm_num)]
      refine Or.inl ⟨_, rfl, ?_⟩
      split
      · exact lt_of_le_of_lt (andNot_le _ _) (wfWords_getD hwf 0)
      · exact wfWords_getD hwf 0
    · rw [if_neg (by omega)]
      obtain ⟨hne0, hnm⟩ := skippable_false_iff.mp hs
      have htn : ((k : Int)).toNat = k := Int.toNat_natCast k
      rw [htn]
      have hbl : (bs.take (k + 1)).length = k + 1 := by
        rw [List.length_take]; omega
      have hgk : (bs.take (k + 1)).getD k 0 = bs.getD k 0 := getD_take (by omega)
      refine Or.inr ⟨_, rfl, ?_, ?_, ?_⟩
      · split
        · rw [List.length_set, hbl]; omega
        · rw [hbl]; omega
      · split
        · next hin =>
            rw [List.length_set, hbl, Nat.add_sub_cancel]
            rcases eq_or_ne (i / 64) k with hik | hik
            · rw [hik, getD_set_self _ (by omega), hgk]
              refine andNot_ne_zero (wfWords_getD hwf k) (Nat.mod_lt i (by norm_num)) hne0 ?_
              intro hmask
              exact hnm ⟨hik.symm, hmask⟩
            · rw [getD_set_ne _ (Ne.symm hik), hgk]
              exact hne0
        · next hin =>
            rw [hbl, Nat.add_sub_cancel, hgk]
            exact hne0
      · intro k' hk'
        split
        · next hin =>
            rcases eq_or_ne k' (i / 64) with rfl | hne
            · rw [getD_set_self _ hin]
              exact lt_of_le_of_lt (andNot_le _ _) (wfWords_getD (wfWords_take hwf _) _)
            · rw [getD_set_ne _ hne]
              exact wfWords_getD (wfWords_take hwf _) k'
        · exact wfWords_getD (wfWords_take hwf _) k'

theorem Inv_Remove {S : Set} (h : Inv S) (i : Nat) : Inv (S.Remove i) := by
  cases S with
  | small b =>
      show Inv (bitSet64.Remove b i)
      unfold bitSet64.Remove
      split
      · exact h
      · exact lt_of_le_of_lt (andNot_le _ _) h
  | large bs =>
      show Inv (largeBitSet.Remove bs i)
      rcases Nat.lt_or_ge (i / 64) bs.length with hidx | hidx
      · rcases remove_result h.2.2 hidx with ⟨b0, he, hb⟩ | ⟨l, he, h2, hl, hwf⟩
        · rw [he]; exact hb
        · rw [he]; exact ⟨h2, hl, hwf⟩
      · have : largeBitSet.Remove bs i = .large bs := by
          unfold largeBitSet.Remove
          rw [if_pos hidx]
        rw [this]; exact h

theorem reachable_inv {S : Set} (h : Reachable S) : Inv S := by
  induction h with
  | new => exact Nat.two_pow_pos 64
  | add s i _ ih => exact Inv_Add ih i
  | rem s i _ ih => exact Inv_Remove ih i


/-! ### Exact round trip (`Add` then `Remove` of an absent bit) -/

theorem set_getD_self {l : List Nat} {k : Nat} (h : k < l.length) :
    l.set k (l.getD k 0) = l := by
  apply getD_ext (by simp)
  intro m
  rcases eq_or_ne m k with rfl | hne
  · rw [getD_set_self _ h]
  · rw [getD_set_ne _ hne]

theorem largeAdd_inrange {bs : List Nat} {i : Nat} (h : i / 64 < bs.length) :
    largeBitSet.Add bs i = bs.set (i / 64) ((bs.getD (i / 64) 0) ||| (1 <<< (i % 64))) := by
  apply getD_ext
  · rw [largeAdd_length, List.length_set]; omega
  · intro k
    rw [largeAdd_getD]
    rcases eq_or_ne k (i / 64) with rfl | hne
    · rw [if_pos rfl, getD_set_self _ h]
    · rw [if_neg hne, getD_set_ne _ hne]

theorem round_trip {S : Set} (h : Inv S) {i : Nat} (hi : S.Has i = false) :
    (S.Add i).Remove i = S := by
  cases S with
  | small b =>
      have hb : b < 2 ^ 64 := h
      rcases Nat.lt_or_ge i 64 with hi64 | hi64
      · have ht : b.testBit i = false := by
          rw [← bitSet64_Has_eq_wf hb i]; exact hi
        show (bitSet64.Add b i).Remove i = Set.small b
        rw [bitSet64.Add, if_pos hi64]
        show bitSet64.Remove (b ||| (1 <<< i)) i = Set.small b
        rw [bitSet64.Remove, if_neg (by omega)]
        rw [clear_set_bit hb hi64 ht]
      · show (bitSet64.Add b i).Remove i = Set.small b
        rw [add_promote b hi64]
        show largeBitSet.Remove _ i = Set.small b
        have hidx1 : 1 ≤ i / 64 := div64_ge_one hi64
        set L := ((List.replicate (i / 64 + 1) 0).set 0 b).set (i / 64) (1 <<< (i % 64))
          with hL
        have hlen : L.length = i / 64 + 1 := by rw [hL]; simp
        have hLget : ∀ k, L.getD k 0 =
            if k = 0 then b else if k = i / 64 then 1 <<< (i % 64) else 0 := by
          intro k; rw [hL]; exact promote_getD b hi64 k
        have hsk : ∀ m, 0 < m → m < L.length → skippable L (i / 64) (1 <<< (i % 64)) m = true := by
          intro m hm0 hm
          rw [skippable_true_iff, hLget m, if_neg (by omega)]
          rcases eq_or_ne m (i / 64) with rfl | hm2
          · exact Or.inr ⟨rfl, by rw [if_pos rfl]⟩
          · exact Or.inl (by rw [if_neg hm2])
        have hscan : findLastIdx L (i / 64) (1 <<< (i % 64)) L.length ≤ 0 := by
          rcases eq_or_ne b 0 with rfl | hb0
          · have hall : ∀ m, m < L.length → skippable L (i / 64) (1 <<< (i % 64)) m = true := by
              intro m hm
              rcases Nat.eq_zero_or_pos m with rfl | hm0
              · rw [skippable_true_iff, hLget 0, if_pos rfl]
                exact Or.inl rfl
              · exact hsk m hm0 hm
            rw [findLastIdx_neg L (i / 64) (1 <<< (i % 64)) L.length hall]
            norm_num
          · have h0f : skippable L (i / 64) (1 <<< (i % 64)) 0 = false := by
              rw [skippable_false_iff, hLget 0, if_pos rfl]
              exact ⟨hb0, fun hc => absurd hc.1 (by omega)⟩
            rw [findLastIdx_eq_of L (i / 64) (1 <<< (i % 64)) 0 L.length (by omega) h0f
              (fun m hm1 hm2 => hsk m hm1 hm2)]
            norm_num
        rw [remove_eval L i (by omega), if_pos hscan, hLget 0, if_pos rfl]
        rw [if_neg (fun hc => absurd hc.2 (by omega))]
  | large bs =>
      obtain ⟨h2, hlast, hwf⟩ := h
      show (Set.large (largeBitSet.Add bs i)).Remove i = Set.large bs
      simp only [Set.Remove]
      have hHas : (bs.getD (i / 64) 0).testBit (i % 64) = false := by
        rw [← largeBitSet_Has_eq]; exact hi
      rcases Nat.lt_or_ge (i / 64) bs.length with hidx | hidx
      · rw [largeAdd_inrange hidx]
        set A := bs.set (i / 64) ((bs.getD (i / 64) 0) ||| (1 <<< (i % 64))) with hA
        have hAlen : A.length = bs.length := by rw [hA]; simp
        have hAyes : A.getD (i / 64) 0 = (bs.getD (i / 64) 0) ||| (1 <<< (i % 64)) := by
          rw [hA]; exact getD_set_self _ (by omega)
        have hAno : ∀ k, k ≠ i / 64 → A.getD k 0 = bs.getD k 0 := by
          intro k hk; rw [hA]; exact getD_set_ne _ hk
        have hklast : skippable A (i / 64) (1 <<< (i % 64)) (bs.length - 1) = false := by
          rw [skippable_false_iff]
          rcases eq_or_ne (bs.length - 1) (i / 64) with he | hne
          · rw [he, hAyes]
            refine ⟨or_shl_one_ne_zero _ _, ?_⟩
            rintro ⟨-, hmask⟩
            have hw0 : bs.getD (i / 64) 0 ≠ 0 := by rw [← he]; exact hlast
            exact or_single_ne_single hw0 hHas hmask
          · rw [hAno _ hne]
            exact ⟨hlast, fun hc => hne hc.1⟩
        have hscan : findLastIdx A (i / 64) (1 <<< (i % 64)) A.length
            = ((bs.length - 1 : Nat) : Int) := by
          rw [hAlen]
          exact findLastIdx_eq_of _ _ _ _ _ (by omega) hklast (fun m hm1 hm2 => by omega)
        rw [remove_eval A i (by omega), hscan, if_neg (by omega), Int.toNat_natCast]
        have htake : A.take (bs.length - 1 + 1) = A := by
          have he : bs.length - 1 + 1 = A.length := by omega
          rw [he, List.take_length]
        rw [htake, if_pos (by omega), hAyes]
        rw [clear_set_bit (wfWords_getD hwf _) (Nat.mod_lt i (by norm_num)) hHas]
        rw [hA, List.set_set, set_getD_self hidx]
      · have hAlen : (largeBitSet.Add bs i).length = i / 64 + 1 := by
          rw [largeAdd_length]; omega
        have hstop : skippable (largeBitSet.Add bs i) (i / 64) (1 <<< (i % 64))
            (bs.length - 1) = false := by
          rw [skippable_false_iff, largeAdd_getD, if_neg (by omega)]
          exact ⟨hlast, fun hc => by omega⟩
        have hmid : ∀ m, bs.length - 1 < m → m < i / 64 + 1 →
            skippable (largeBitSet.Add bs i) (i / 64) (1 <<< (i % 64)) m = true := by
          intro m hm1 hm2
          rw [skippable_true_iff, largeAdd_getD]
          rcases eq_or_ne m (i / 64) with rfl | hne
          · exact Or.inr ⟨rfl, by rw [if_pos rfl, getD_oob hidx, Nat.zero_or]⟩
          · exact Or.inl (by rw [if_neg hne]; exact getD_oob (by omega))
        have hscan : findLastIdx (largeBitSet.Add bs i) (i / 64) (1 <<< (i % 64))
            (largeBitSet.Add bs i).length = ((bs.length - 1 : Nat) : Int) := by
          rw [hAlen]
          exact findLastIdx_eq_of _ _ _ _ _ (by omega) hstop hmid
        rw [remove_eval (largeBitSet.Add bs i) i (by omega), hscan, if_neg (by omega),
          Int.toNat_natCast]
        have hbs : (largeBitSet.Add bs i).take (bs.length - 1 + 1) = bs := by
          apply getD_ext
          · rw [List.length_take, hAlen]; omega
          · intro k
            rcases Nat.lt_or_ge k bs.length with hk | hk
            · rw [getD_take (by omega), largeAdd_getD, if_neg (by omega)]
            · rw [getD_oob (by rw [List.length_take, hAlen]; omega), getD_oob hk]
        rw [hbs, if_neg (Nat.not_lt.mpr hidx)]


/-! ### Builder equivalence with folded `Add` -/

theorem build_with (bld : Builder) (i : Nat) :
    Builder.Build (Builder.With bld i) = Set.Add (Builder.Build bld) i := by
  cases bld with
  | small b =>
      show Builder.Build (bitSet64.With b i) = bitSet64.Add b i
      cases h : bitSet64.Add b i <;> simp [bitSet64.With, h, Builder.Build]
  | large bs =>
      show Set.large (bitSetBuilder.With bs i) = Set.large (largeBitSet.Add bs i)
      congr 1
      by_cases hin : i / 64 < bs.length
      · rw [show bitSetBuilder.With bs i
            = bs.set (i / 64) ((bs.getD (i / 64) 0) ||| (1 <<< (i % 64))) from by
          simp [bitSetBuilder.With, hin]]
        exact (largeAdd_inrange hin).symm
      · simp [bitSetBuilder.With, hin]

theorem build_foldl (l : List Nat) (bld : Builder) :
    Builder.Build (Builder.WithMany bld l) = l.foldl Set.Add (Builder.Build bld) := by
  induction l generalizing bld with
  | nil => rfl
  | cons x xs ih =>
      show Builder.Build (Builder.WithMany (Builder.With bld x) xs)
        = xs.foldl Set.Add (Set.Add (Builder.Build bld) x)
      rw [ih (Builder.With bld x), build_with]

theorem has_foldl (l : List Nat) (S : Set) (k : Nat) :
    (l.foldl Set.Add S).Has k = (decide (k ∈ l) || S.Has k) := by
  induction l generalizing S with
  | nil => simp
  | cons x xs ih =>
      show (xs.foldl Set.Add (S.Add x)).Has k = _
      rw [ih (S.Add x), Has_Add]
      simp [List.mem_cons, Bool.or_assoc, Bool.or_comm, Bool.or_left_comm]

theorem set_last_append (h : Store) (a v : List Nat) :
    (h ++ [a]).set h.length v = h ++ [v] := by
  induction h with
  | nil => rfl
  | cons x xs ih => simp [List.set, ih]

theorem read_append_left {h : Store} {r : Nat} (t : List (List Nat))
    (hr : r < h.length) : Store.read (h ++ t) r = Store.read h r := by
  unfold Store.read
  simp [List.getD_eq_getElem?_getD, List.getElem?_append_left hr]

theorem read_last (h : Store) (t : List Nat) :
    Store.read (h ++ [t]) h.length = t := by
  unfold Store.read
  simp [List.getD_eq_getElem?_getD, List.getElem?_append_right (Nat.le_refl h.length)]

theorem AddS_extends (h : Store) (r i : Nat) :
    ∃ t, (largeBitSet.AddS h r i).1 = h ++ [t] := by
  unfold largeBitSet.AddS
  simp only [set_last_append]
  exact ⟨_, rfl⟩

theorem RemoveS_extends (h : Store) (r i : Nat) :
    (largeBitSet.RemoveS h r i).1 = h ∨
      ∃ t, (largeBitSet.RemoveS h r i).1 = h ++ [t] := by
  unfold largeBitSet.RemoveS
  simp only [set_last_append]
  split
  · exact Or.inl rfl
  · split
    · exact Or.inl rfl
    · split
      · exact Or.inr ⟨_, rfl⟩
      · exact Or.inr ⟨_, rfl⟩

theorem AddS_frame (h : Store) (r i : Nat) (hr : r < h.length) :
    Store.read (largeBitSet.AddS h r i).1 r = Store.read h r := by
  obtain ⟨t, ht⟩ := AddS_extends h r i
  rw [ht, read_append_left [t] hr]

theorem RemoveS_frame (h : Store) (r i : Nat) (hr : r < h.length) :
    Store.read (largeBitSet.RemoveS h r i).1 r = Store.read h r := by
  rcases RemoveS_extends h r i with he | ⟨t, ht⟩
  · rw [he]
  · rw [ht, read_append_left [t] hr]

theorem goCopy_replicate (n : Nat) (src : List Nat) (hle : src.length ≤ n) :
    goCopy (List.replicate n 0) src = src ++ List.replicate (n - src.length) 0 := by
  unfold goCopy
  rw [List.length_replicate, List.take_of_length_le hle, List.drop_replicate]

/-- The slice returned by the store-level `Add` holds exactly the value the
pure model computes from the dereferenced argument. -/
theorem AddS_result (h : Store) (r i : Nat) :
    Store.read (largeBitSet.AddS h r i).1 (largeBitSet.AddS h r i).2
      = largeBitSet.Add (Store.read h r) i := by
  unfold largeBitSet.AddS largeBitSet.Add
  simp only [set_last_append, read_last]
  rw [goCopy_replicate _ _ (Nat.le_max_left _ _)]


theorem soleBit_eq {w j : Nat} (hw : w < 2 ^ 64) (hj : j < 64) :
    soleBit w j = (w == 1 <<< j) := by
  unfold soleBit
  cases he : (w == 1 <<< j) with
  | true =>
      have hwe : w = 1 <<< j := by simpa using he
      subst hwe
      have h1 : ((1 : Nat) <<< j) ≠ 0 := by
        rw [Nat.one_shiftLeft]; exact (Nat.two_pow_pos j).ne.symm
      have h2 : ∀ m, m < 64 → (((1 : Nat) <<< j).testBit m ↔ m = j) := by
        intro m hm
        rw [testBit_shl_one]
        simp [eq_comm]
      simp only [Bool.and_eq_true, decide_eq_true_eq]
      exact ⟨h1, h2⟩
  | false =>
      have hne : w ≠ 1 <<< j := by simpa using he
      rcases eq_or_ne w 0 with rfl | h0
      · simp
      · have hnall : ¬(∀ m, m < 64 → (w.testBit m ↔ m = j)) := by
          intro hall
          apply hne
          apply Nat.eq_of_testBit_eq
          intro m
          rw [testBit_shl_one]
          rcases Nat.lt_or_ge m 64 with hm | hm
          · by_cases hmj : m = j
            · subst hmj; simp [(hall m hm).mpr rfl]
            · have hbit : w.testBit m = false := by
                cases hx : w.testBit m
                · rfl
                · exact absurd ((hall m hm).mp (by simp [hx])) hmj
              simp [hbit, Ne.symm hmj]
          · rw [testBit_ge_64 hw hm]
            simp
            omega
        rw [decide_eq_false hnall, Bool.and_false]

theorem skippableDescribed_eq {b : List Nat} {idx j k : Nat}
    (hwf : wfWords b) (hj : j < 64) :
    skippableDescribed b idx j k = skippable b idx (1 <<< j) k := by
  unfold skippableDescribed skippable
  rw [soleBit_eq (wfWords_getD hwf k) hj]

theorem findLastIdxDescribed_eq {b : List Nat} {idx j : Nat}
    (hwf : wfWords b) (hj : j < 64) :
    ∀ n, findLastIdxDescribed b idx j n = findLastIdx b idx (1 <<< j) n := by
  intro n
  induction n with
  | zero => rfl
  | succ n ih =>
      simp only [findLastIdxDescribed, findLastIdx, skippableDescribed_eq hwf hj, ih]


/-! ### Shared helper: a normalized heap form has a member at or above 64 -/

theorem heap_has_high {bs : List Nat} (h : heapInv bs) :
    ∃ i, 64 ≤ i ∧ (Set.large bs).Has i = true := by
  obtain ⟨h2, hlast, hwf⟩ := h
  obtain ⟨j, hj, -⟩ := Nat.exists_most_significant_bit hlast
  have hj64 : j < 64 := by
    by_contra hge
    rw [testBit_ge_64 (wfWords_getD hwf _) (by omega)] at hj
    exact Bool.false_ne_true hj
  refine ⟨64 * (bs.length - 1) + j, by omega, ?_⟩
  show largeBitSet.Has bs _ = true
  rw [largeBitSet_Has_eq]
  have hdiv : (64 * (bs.length - 1) + j) / 64 = bs.length - 1 := by omega
  have hmod : (64 * (bs.length - 1) + j) % 64 = j := by omega
  rw [hdiv, hmod]
  exact hj

/-! ### Claims -/

/-- C1 (counterexample): `NewBuilder(65).Build()` is a heap-form `Set`
produced by public operations whose word sequence is `[0, 0]` — its last word
is zero and it violates the stated heap-form invariant, refuting the claim
that every publicly produced heap form has a non-zero last word and is never
used for a set representable inline. -/
theorem builder_output_violates_heap_invariant :
    (Builder.Build (NewBuilder 65)).isLarge = true ∧
    Builder.Build (NewBuilder 65) = Set.large [0, 0] ∧
    ¬ heapInv [0, 0] := by decide

/-- C1 (amended): every heap-form `Set` reachable from `New` using only `Add`
and `Remove` has a non-zero last word and at least two words, and contains a
member at or above 64 (hence is neither empty nor representable inline);
Builder-produced values are exempt. -/
theorem heap_invariant_add_remove (S : Set) (h : Reachable S) (bs : List Nat)
    (he : S = Set.large bs) :
    bs.getD (bs.length - 1) 0 ≠ 0 ∧ 2 ≤ bs.length ∧
      ∃ i, 64 ≤ i ∧ S.Has i = true := by
  have hInv := reachable_inv h
  subst he
  exact ⟨hInv.2.1, hInv.1, heap_has_high hInv⟩

/-- C1 (witness): the amended claim at `New().Add(70) = large [0, 64]`. -/
theorem heap_invariant_add_remove_witness :
    [0, (64 : Nat)].getD ([0, (64 : Nat)].length - 1) 0 ≠ 0 ∧
      2 ≤ [0, (64 : Nat)].length ∧
      ∃ i, 64 ≤ i ∧ (Set.Add New 70).Has i = true :=
  heap_invariant_add_remove (Set.Add New 70) (Reachable.add New 70 Reachable.new)
    [0, 64] (by decide)

/-- C2 (counterexample): for the builder-produced heap value
`NewBuilder(128).With(0).Build() = large [1, 0]` (trailing zero word) and
`i = 70` with `Has 70 = false`, `Add 70` then `Remove 70` demotes to the
inline value `small 1`, so the round trip does not return the identical
representation. -/
theorem round_trip_counterexample :
    Set.Has (Builder.Build (Builder.With (NewBuilder 128) 0)) 70 = false ∧
    Set.Remove (Set.Add (Builder.Build (Builder.With (NewBuilder 128) 0)) 70) 70
      ≠ Builder.Build (Builder.With (NewBuilder 128) 0) := by decide

/-- C2 (amended): for every `Set` value that is inline (a `uint64` word) or a
heap form satisfying the no-trailing-zero invariant (at least two words,
non-zero last word) — which covers every value reachable via `New`/`Add`/
`Remove` — and every index `i` with `Has i = false`, `Add i` then `Remove i`
returns the identical representation. -/
theorem round_trip_exact (S : Set) (h : Inv S) (i : Nat) (hi : S.Has i = false) :
    (S.Add i).Remove i = S :=
  round_trip h hi

/-- C2 (witness): the amended round trip at `S = small 5`, `i = 70`. -/
theorem round_trip_exact_witness :
    Set.Remove (Set.Add (Set.small 5) 70) 70 = Set.small 5 :=
  round_trip_exact (Set.small 5) (by decide) 70 (by decide)

/-- C3: for every heap word sequence with in-range target slot,
`largeBitSet.Remove` agrees with the claim's description `RemoveDescribed`:
scan backward skipping all-zero words and (target slot only) a word whose
sole set bit is the one removed; demote to slot 0's word with the bit
cleared when the target slot is 0 if `lastIdx ≤ 0`; otherwise return the
copied prefix of length `lastIdx + 1` with the target bit cleared. -/
theorem remove_matches_description (b : List Nat) (i : Nat) (hwf : wfWords b)
    (hidx : i / 64 < b.length) :
    largeBitSet.Remove b i = RemoveDescribed b i := by
  rw [remove_eval b i hidx]
  simp only [RemoveDescribed]
  rw [findLastIdxDescribed_eq hwf (Nat.mod_lt i (by norm_num))]
  by_cases hle : findLastIdx b (i / 64) (1 <<< (i % 64)) b.length ≤ 0
  · rw [if_pos hle, if_pos hle]
    congr 1
    by_cases h0 : i / 64 = 0
    · by_cases hb0 : b.getD 0 0 = 0
      · rw [if_neg (fun hc => hc.1 hb0), if_pos h0, hb0, andNot_zero]
      · have hm : i % 64 = i := Nat.mod_eq_of_lt (by omega)
        rw [if_pos ⟨hb0, h0⟩, if_pos h0, hm]
    · rw [if_neg (fun hc => h0 hc.2), if_neg h0]
  · rw [if_neg hle, if_neg hle]
    congr 1
    by_cases hin : i / 64 <
        (b.take ((findLastIdx b (i / 64) (1 <<< (i % 64)) b.length).toNat + 1)).length
    · rw [if_pos hin]
    · rw [if_neg hin, List.set_eq_of_length_le (Nat.le_of_not_lt hin)]

/-- C3 (witness): the description matches the code on `[3, 2, 0]`, `i = 65`
(where the scan skips a trailing zero word and the target word `2`, and the
result demotes to `small 3`). -/
theorem remove_matches_description_witness :
    largeBitSet.Remove [3, 2, 0] 65 = RemoveDescribed [3, 2, 0] 65 :=
  remove_matches_description [3, 2, 0] 65 (by decide) (by decide)

/-- C4: in the store model of Go slices, `largeBitSet.Add` and
`largeBitSet.Remove` leave the argument's backing slice bit-for-bit
unchanged (every write targets a freshly allocated slice), so `Has` on the
argument returns the same value after the call as before, for every index. -/
theorem operations_do_not_mutate_argument (h : Store) (r i k : Nat)
    (hr : r < h.length) :
    Store.read (largeBitSet.AddS h r i).1 r = Store.read h r ∧
    Store.read (largeBitSet.RemoveS h r i).1 r = Store.read h r ∧
    largeBitSet.Has (Store.read (largeBitSet.AddS h r i).1 r) k
      = largeBitSet.Has (Store.read h r) k ∧
    largeBitSet.Has (Store.read (largeBitSet.RemoveS h r i).1 r) k
      = largeBitSet.Has (Store.read h r) k := by
  refine ⟨AddS_frame h r i hr, RemoveS_frame h r i hr, ?_, ?_⟩
  · rw [AddS_frame h r i hr]
  · rw [RemoveS_frame h r i hr]

/-- C4 (witness): immutability at the one-slice store `[[1, 2]]`, `i = 70`,
`k = 65`. -/
theorem operations_do_not_mutate_argument_witness :
    Store.read (largeBitSet.AddS [[1, 2]] 0 70).1 0 = Store.read [[1, 2]] 0 ∧
    Store.read (largeBitSet.RemoveS [[1, 2]] 0 70).1 0 = Store.read [[1, 2]] 0 ∧
    largeBitSet.Has (Store.read (largeBitSet.AddS [[1, 2]] 0 70).1 0) 65
      = largeBitSet.Has (Store.read [[1, 2]] 0) 65 ∧
    largeBitSet.Has (Store.read (largeBitSet.RemoveS [[1, 2]] 0 70).1 0) 65
      = largeBitSet.Has (Store.read [[1, 2]] 0) 65 :=
  operations_do_not_mutate_argument [[1, 2]] 0 70 65 (by decide)

/-- C5: for every sequence of indices, `NewBuilder(0)` followed by `WithMany`
and `Build` yields the Set obtained by folding `Add` over the sequence from
`New()` (identical representation), and its members are exactly the indices
occurring in the sequence. -/
theorem builder_equivalence (l : List Nat) :
    Builder.Build (Builder.WithMany (NewBuilder 0) l) = l.foldl Set.Add New ∧
    ∀ i, (Builder.Build (Builder.WithMany (NewBuilder 0) l)).Has i = decide (i ∈ l) := by
  have hb : Builder.Build (NewBuilder 0) = New := by decide
  constructor
  · rw [build_foldl, hb]
  · intro i
    rw [build_foldl, hb, has_foldl, Has_New, Bool.or_false]

/-- C6: promotion shape — for every inline word `b` and index `i ≥ 64`,
`bitSet64.Add b i` is a heap value of length `i/64 + 1` whose slot 0 is `b`,
whose slot `i/64` is exactly the single bit `i % 64`, and whose intermediate
slots are zero. -/
theorem promotion_shape (b i : Nat) (hi : 64 ≤ i) :
    (bitSet64.Add b i).isLarge = true ∧
    (bitSet64.Add b i).heapList.length = i / 64 + 1 ∧
    (bitSet64.Add b i).heapList.getD 0 0 = b ∧
    (bitSet64.Add b i).heapList.getD (i / 64) 0 = 1 <<< (i % 64) ∧
    ∀ k, 0 < k → k < i / 64 → (bitSet64.Add b i).heapList.getD k 0 = 0 := by
  rw [add_promote b hi]
  simp only [Set.heapList, Set.isLarge]
  have hidx : 1 ≤ i / 64 := div64_ge_one hi
  refine ⟨by simp, by simp, ?_, ?_, ?_⟩
  · rw [promote_getD b hi 0, if_pos rfl]
  · rw [promote_getD b hi (i / 64), if_neg (by omega), if_pos rfl]
  · intro k hk0 hki
    rw [promote_getD b hi k, if_neg (by omega), if_neg (by omega)]

/-- C6 (witness): the promotion shape at `b = 5`, `i = 70`. -/
theorem promotion_shape_witness :
    (bitSet64.Add 5 70).isLarge = true ∧
    (bitSet64.Add 5 70).heapList.length = 70 / 64 + 1 ∧
    (bitSet64.Add 5 70).heapList.getD 0 0 = 5 ∧
    (bitSet64.Add 5 70).heapList.getD (70 / 64) 0 = 1 <<< (70 % 64) ∧
    ∀ k, 0 < k → k < 70 / 64 → (bitSet64.Add 5 70).heapList.getD k 0 = 0 :=
  promotion_shape 5 70 (by decide)

/-- C7: `New().Add(70).Add(200).Remove(200)` is the heap value `[0, 64]` of
length `70/64 + 1 = 2`, still containing 70 and no longer containing 200. -/
theorem shrink_concrete :
    Set.Remove (Set.Add (Set.Add New 70) 200) 200 = Set.large [0, 64] ∧
    (Set.Remove (Set.Add (Set.Add New 70) 200) 200).heapList.length = 70 / 64 + 1 ∧
    Set.Has (Set.Remove (Set.Add (Set.Add New 70) 200) 200) 70 = true ∧
    Set.Has (Set.Remove (Set.Add (Set.Add New 70) 200) 200) 200 = false := by
  decide

/-- C8: totality / defined fallback behavior — `Has` at or beyond the
representation's range is false, `Remove` with an out-of-range slot returns
the value unchanged, and `Add` of a large index promotes (inline) or grows
(heap) to a sequence of length `i/64 + 1` instead of failing. -/
theorem total_defined_behavior (b : Nat) (bs : List Nat) (i : Nat) :
    (64 ≤ i → bitSet64.Has b i = false) ∧
    (bs.length ≤ i / 64 → largeBitSet.Has bs i = false) ∧
    (64 ≤ i → bitSet64.Remove b i = Set.small b) ∧
    (bs.length ≤ i / 64 → largeBitSet.Remove bs i = Set.large bs) ∧
    (64 ≤ i → (bitSet64.Add b i).isLarge = true ∧
      (bitSet64.Add b i).heapList.length = i / 64 + 1) ∧
    (bs.length ≤ i / 64 → (largeBitSet.Add bs i).length = i / 64 + 1) := by
  refine ⟨?_, ?_, ?_, ?_, ?_, ?_⟩
  · intro h; rw [bitSet64.Has, if_pos h]
  · intro h; rw [largeBitSet_Has_eq, getD_oob h, Nat.zero_testBit]
  · intro h; rw [bitSet64.Remove, if_pos h]
  · intro h; unfold largeBitSet.Remove; rw [if_pos h]
  · intro h
    rw [add_promote b h]
    exact ⟨rfl, by simp [Set.heapList]⟩
  · intro h; rw [largeAdd_length]; omega

/-- C8 (witness): the fallback behaviors at `b = 3`, `bs = [5]`, `i = 100`. -/
theorem total_defined_behavior_witness :
    bitSet64.Has 3 100 = false ∧ largeBitSet.Has [5] 100 = false ∧
    bitSet64.Remove 3 100 = Set.small 3 ∧
    largeBitSet.Remove [5] 100 = Set.large [5] ∧
    (largeBitSet.Add [5] 100).length = 100 / 64 + 1 :=
  ⟨(total_defined_behavior 3 [5] 100).1 (by decide),
   (total_defined_behavior 3 [5] 100).2.1 (by decide),
   (total_defined_behavior 3 [5] 100).2.2.1 (by decide),
   (total_defined_behavior 3 [5] 100).2.2.2.1 (by decide),
   (total_defined_behavior 3 [5] 100).2.2.2.2.2 (by decide)⟩

/-- C9: every `Set` reachable from `New()` via `Add`/`Remove` that is in heap
form has at least two words and a non-zero last word, and its representation
tag is determined by its membership: it is heap-form exactly when it has a
member at or above 64. -/
theorem representation_determined (S : Set) (h : Reachable S) :
    (∀ bs, S = Set.large bs → 2 ≤ bs.length ∧ bs.getD (bs.length - 1) 0 ≠ 0) ∧
    (S.isLarge = true ↔ ∃ i, 64 ≤ i ∧ S.Has i = true) := by
  have hInv := reachable_inv h
  constructor
  · intro bs he
    subst he
    exact ⟨hInv.1, hInv.2.1⟩
  · constructor
    · intro hl
      cases S with
      | small b => exact absurd hl (by simp [Set.isLarge])
      | large bs => exact heap_has_high hInv
    · rintro ⟨i, hi, hhas⟩
      cases S with
      | small b =>
          have h2 : bitSet64.Has b i = true := hhas
          rw [bitSet64.Has, if_pos hi] at h2
          exact absurd h2 (by simp)
      | large bs => rfl

/-- C9 (witness): the invariant and tag characterization at `New().Add(70)`. -/
theorem representation_determined_witness :
    (∀ bs, Set.Add New 70 = Set.large bs →
      2 ≤ bs.length ∧ bs.getD (bs.length - 1) 0 ≠ 0) ∧
    ((Set.Add New 70).isLarge = true ↔ ∃ i, 64 ≤ i ∧ (Set.Add New 70).Has i = true) :=
  representation_determined (Set.Add New 70) (Reachable.add New 70 Reachable.new)

/-- C10: for every heap word sequence (trailing zeros allowed, as a Builder
can produce) whose target slot is in range, `Remove` returns either an inline
value or a heap value with at least two words and a non-zero last word. -/
theorem remove_normalizes (bs : List Nat) (i : Nat) (hwf : wfWords bs)
    (hidx : i / 64 < bs.length) :
    (∃ b0, largeBitSet.Remove bs i = Set.small b0) ∨
    (∃ l, largeBitSet.Remove bs i = Set.large l ∧ 2 ≤ l.length ∧
      l.getD (l.length - 1) 0 ≠ 0) := by
  rcases remove_result hwf hidx with ⟨b0, he, _⟩ | ⟨l, he, h2, hl, _⟩
  · exact Or.inl ⟨b0, he⟩
  · exact Or.inr ⟨l, he, h2, hl⟩

/-- C10 (witness): normalization at `[0, 0, 5, 0]`, `i = 130`. -/
theorem remove_normalizes_witness :
    (∃ b0, largeBitSet.Remove [0, 0, 5, 0] 130 = Set.small b0) ∨
    (∃ l, largeBitSet.Remove [0, 0, 5, 0] 130 = Set.large l ∧ 2 ≤ l.length ∧
      l.getD (l.length - 1) 0 ≠ 0) :=
  remove_normalizes [0, 0, 5, 0] 130 (by decide) (by decide)

end Bitset
